import Mathlib

/-!
Verification of the similarity-search and feature-cache engine of the
`intelsk` repository.  The definitions below are a shallow embedding of the
relevant Python source:

* `src/experiments/desktop/app.py` — the desktop app: `_run_face_search`
  (face scan with feature cache), `_run_search` (text ranking with a
  relative-to-top threshold), `_on_enroll_face` (face registry enrollment);
* `src/mlservice/searcher.py` — `Searcher.search_by_text` (SQL-backed text
  search with an absolute `min_score` floor and `np.argsort` ranking);
* `src/mlservice/clip_encoder.py` — `CLIPEncoder.encode_images` (batched
  image encoding).

Scores, distances and modification times are modelled as rationals (`ℚ`);
paths and row ids as natural numbers.  External collaborators (the embedding
model, the face_recognition library) are parameters: an abstract distance
function `dist : Vec → Vec → ℚ` and an abstract per-path feature extractor
`extract : Nat → List Vec`.  A Python exception escaping the modelled code is
an `Except.error` / `none` value.
-/

namespace Intelsk

/-- An embedding vector (the fixed dimension is irrelevant to the claims). -/
abbrev Vec := List ℚ

/-- Dot product, the cosine similarity of the L2-normalized vectors the
encoder produces (`emb_matrix @ text_emb` in `searcher.py`,
`image_features @ text_features.T` in `app.py`). -/
def dot (a b : Vec) : ℚ :=
  (List.zipWith (fun x y => x * y) a b).foldl (fun s v => s + v) 0

/-! ## Stable sorting, `np.argsort`

`results.sort(key=lambda x: x[1])` (Python `list.sort`) is a stable
ascending sort by key.  We model it by a stable insertion sort: an element
is inserted before the first element of greater-or-equal key, which keeps
equal keys in their original relative order.  `np.argsort(scores)` is
modelled as the stable sort of the index list `[0, ..., n-1]` by score. -/

/-- Insert `x` into `l` before the first element of key `≥ key x`. -/
def insertOn (key : α → ℚ) (x : α) : List α → List α
  | [] => [x]
  | y :: ys => if key x ≤ key y then x :: y :: ys else y :: insertOn key x ys

/-- Stable ascending insertion sort by `key`. -/
def sortOn (key : α → ℚ) : List α → List α
  | [] => []
  | x :: xs => insertOn key x (sortOn key xs)

/-- `np.argsort(scores)` (ascending): indices `0..n-1` stably sorted by the
score they point at.  Missing indices read as `0` via `getD`; `argsort` only
produces in-range indices. -/
def npArgsortAsc (sims : List ℚ) : List Nat :=
  sortOn (fun i => sims.getD i 0) (List.range sims.length)

/-! ## Text search ranking (`app.py`, `_run_search`, lines 621–631)

`similarities.argsort(descending=True)` is modelled as the reverse of the
ascending argsort (`torch` leaves the order of equal elements unspecified
with `stable=False`; none of the proved properties depend on tie order of
this ranker).  `top_score = similarities[ranked_indices[0]]`,
`cutoff = top_score * (threshold_pct / 100) if top_score > 0 else 0.0`, and
the result list keeps every ranked index with similarity `≥ cutoff`. -/

/-- The top-ranked item's score: `similarities[ranked_indices[0]]`. -/
def topScore (sims : List ℚ) : ℚ :=
  sims.getD (((npArgsortAsc sims).reverse).headD 0) 0

/-- The ranking/filter part of `_run_search` (lines 621–631): sort
descending, compute the relative cutoff from the top score, keep the items
whose similarity reaches the cutoff. -/
def runSearchRank (paths : List Nat) (sims : List ℚ) (pct : ℚ) :
    List (Nat × ℚ) :=
  let ranked := (npArgsortAsc sims).reverse
  let cutoff := if 0 < topScore sims then topScore sims * (pct / 100) else 0
  ranked.filterMap fun idx =>
    if cutoff ≤ sims.getD idx 0 then some (paths.getD idx 0, sims.getD idx 0)
    else none

/-- A text search over a directory (`_run_search`): empty enumeration and
no-readable-image are reported as statuses, not as result lists. -/
inductive TextErr where
  | noImages
  | noReadableImages
  deriving DecidableEq

/-- The whole `_run_search` pipeline over an already-enumerated, sorted path
list: unreadable images are skipped (`encodeImg p = none` models a raised
decode error, caught per path at lines 583–588); the remaining images are
encoded and ranked.  The per-batch structure of the encode loop is
observationally the skip-and-keep filter modelled here. -/
def runTextSearch (encodeImg : Nat → Option Vec) (textEmb : Vec)
    (paths : List Nat) (pct : ℚ) : Except TextErr (List (Nat × ℚ)) :=
  match paths with
  | [] => Except.error TextErr.noImages
  | _ :: _ =>
    let valid := paths.filter fun p => (encodeImg p).isSome
    match valid with
    | [] => Except.error TextErr.noReadableImages
    | v :: vs =>
      let sims := (v :: vs).map fun p => dot ((encodeImg p).getD []) textEmb
      Except.ok (runSearchRank (v :: vs) sims pct)

/-- The number of per-image encoder invocations the `_run_search` encode
loop performs (lines 577–608): unreadable images are skipped, and every
readable image is preprocessed and encoded — the text search has no feature
cache, so nothing is ever served from one, on a first run or on any later
run over the same directory. -/
def textEncodeCalls (encodeImg : Nat → Option Vec) : List Nat → Nat
  | [] => 0
  | p :: ps =>
    match encodeImg p with
    | some _ => textEncodeCalls encodeImg ps + 1
    | none => textEncodeCalls encodeImg ps

/-! ## SQL-backed text search (`searcher.py`, `search_by_text`)

Rows carry an id and an embedding (the camera/timestamp/path metadata is
pass-through and omitted).  `if not rows: return []`;
`ranked = np.argsort(scores)[::-1][:limit]`; then the loop breaks at the
first score below `min_score` (so: take while `¬ (score < min_score)`,
i.e. while `min_score ≤ score`). -/

/-- A `clip_embeddings` row (id and embedding; metadata omitted). -/
structure Row where
  id : Nat
  emb : Vec
  deriving DecidableEq

/-- A ranked search hit. -/
structure SearchResult where
  id : Nat
  score : ℚ
  deriving DecidableEq

/-- `Searcher.search_by_text`, after the text has been encoded and the rows
loaded: rank by descending score, truncate to `limit`, stop at the first
score below `min_score`.  An empty row set returns an empty list. -/
def searchByText (textEmb : Vec) (rows : List Row) (limit : Nat)
    (minScore : ℚ) : List SearchResult :=
  match rows with
  | [] => []
  | _ :: _ =>
    let scores := rows.map fun r => dot r.emb textEmb
    let ranked := ((npArgsortAsc scores).reverse).take limit
    (ranked.takeWhile fun idx => minScore ≤ scores.getD idx 0).map
      fun idx => ⟨(rows.getD idx ⟨0, []⟩).id, scores.getD idx 0⟩

/-! ## Face distance aggregation (`_run_face_search`, lines 443–452)

For an item with face encodings `features`, the source computes, for every
feature, `np.min(face_distance(reference_encodings, face_enc))`, and keeps
the running minimum starting from `inf`.  `minQ` is `np.min` (`none` on the
empty array, where NumPy raises); `bestStep` is one iteration of the
running-minimum loop. -/

/-- `np.min` over a list of distances (`none` where NumPy would raise on an
empty array). -/
def minQ : List ℚ → Option ℚ
  | [] => none
  | x :: xs =>
    match minQ xs with
    | none => some x
    | some m => some (min x m)

/-- Minimum of two optional values (`none` plays positive infinity); the
specification-side counterpart of one `best_distance` loop step. -/
def optMin2 : Option ℚ → Option ℚ → Option ℚ
  | none, b => b
  | some a, none => some a
  | some a, some b => some (min a b)

/-- One step of the `best_distance` loop: fold the per-feature minimum
distance into the running best (`none` plays `inf`). -/
def bestStep (best : Option ℚ) (md : Option ℚ) : Option ℚ :=
  match md with
  | none => best
  | some d =>
    match best with
    | none => some d
    | some b => some (if d < b then d else b)

/-- `best_distance`: minimum over the item's features of the minimum
distance to any reference encoding (lines 444–449). -/
def bestDistance (dist : Vec → Vec → ℚ) (refs : List Vec)
    (features : List Vec) : Option ℚ :=
  features.foldl (fun best f => bestStep best (minQ (refs.map fun r => dist r f)))
    none

/-- The flat list of all pairwise distances of the Cartesian product
(item feature × reference vector), in loop order. -/
def productDistances (dist : Vec → Vec → ℚ) (refs : List Vec) :
    List Vec → List ℚ
  | [] => []
  | f :: fs => refs.map (fun r => dist r f) ++ productDistances dist refs fs

/-! ## Feature cache (`_run_face_search`, lines 410–440, 462–463)

The cache file is a JSON object path → `{mtime, encodings}`; we model its
snapshot as an association list observed through lookup (a dict update is a
shadowing cons). -/

/-- The in-memory cache snapshot: path ↦ (mtime, face encodings). -/
abbrev Cache := List (Nat × ℚ × List Vec)

/-- Dictionary lookup on the cache snapshot. -/
def alookup (p : Nat) : Cache → Option (ℚ × List Vec)
  | [] => none
  | e :: es => if e.1 = p then some e.2 else alookup p es

/-- Dictionary update `cache[path] = {mtime, encodings}` (observed through
`alookup`, a shadowing cons is the update). -/
def cachePut (p : Nat) (m : ℚ) (fs : List Vec) (c : Cache) : Cache :=
  (p, m, fs) :: c

/-- The cache check of lines 421–422: a hit needs an entry for the path
whose recorded mtime equals the current one. -/
def cacheHit (c : Cache) (p : Nat) (m : ℚ) : Option (List Vec) :=
  match alookup p c with
  | some r => if r.1 = m then some r.2 else none
  | none => none

/-! ## The face scan loop (`_run_face_search`, lines 413–481) -/

/-- Comparison of one item's features against the references
(lines 443–452): no features — no comparison, no match; otherwise the best
distance is kept when it does not exceed `maxD`.  `Except.error` models the
`ValueError` NumPy raises in `np.min` when the reference list is empty. -/
def itemMatch (dist : Vec → Vec → ℚ) (refs : List Vec) (maxD : ℚ)
    (features : List Vec) : Except Unit (Option ℚ) :=
  match features with
  | [] => Except.ok none
  | _ :: _ =>
    match bestDistance dist refs features with
    | none => Except.error ()
    | some bd => Except.ok (if bd ≤ maxD then some bd else none)

/-- Prepend a match to the accumulated results when the item matched. -/
def pushMatch (p : Nat) (om : Option ℚ) (rest : List (Nat × ℚ)) :
    List (Nat × ℚ) :=
  match om with
  | some bd => (p, bd) :: rest
  | none => rest

/-- Outcome of the scan loop.  `cache` is the in-memory snapshot after the
pass, `hits` the `(path, best_distance)` pairs appended in enumeration
order, `calls` counts the extraction (Embedding Provider) invocations.
`feats` records, per item in order, the feature list the loop used for it
(cached on a hit, freshly extracted on a miss) — instrumentation used by the
specifications, computed exactly as the source does. -/
structure FaceScanOut where
  cache : Cache
  hits : List (Nat × ℚ)
  feats : List (List Vec)
  calls : Nat
  deriving DecidableEq

/-- The per-item loop of `_run_face_search` (lines 413–460): consult the
cache by path+mtime; on a miss run extraction (`extract p` is the list of
face encodings found — `[]` both for "no face" and for a caught load/decode
exception, lines 425–434) and update the in-memory cache; then compare
against the references and record a match. -/
def faceScanLoop (dist : Vec → Vec → ℚ) (extract : Nat → List Vec)
    (refs : List Vec) (maxD : ℚ) :
    Cache → List (Nat × ℚ) → Except Unit FaceScanOut
  | c, [] => Except.ok ⟨c, [], [], 0⟩
  | c, (p, m) :: rest =>
    match cacheHit c p m with
    | some fs =>
      match itemMatch dist refs maxD fs with
      | Except.error e => Except.error e
      | Except.ok om =>
        match faceScanLoop dist extract refs maxD c rest with
        | Except.error e => Except.error e
        | Except.ok o =>
          Except.ok ⟨o.cache, pushMatch p om o.hits, fs :: o.feats, o.calls⟩
    | none =>
      match itemMatch dist refs maxD (extract p) with
      | Except.error e => Except.error e
      | Except.ok om =>
        match faceScanLoop dist extract refs maxD (cachePut p m (extract p) c) rest with
        | Except.error e => Except.error e
        | Except.ok o =>
          Except.ok ⟨o.cache, pushMatch p om o.hits, extract p :: o.feats,
            o.calls + 1⟩

/-- The contribution of a single processed item to the match list, given the
feature list the loop used for it (the specification-side reading of one loop
iteration's lines 443–452). -/
def contribOf (dist : Vec → Vec → ℚ) (refs : List Vec) (maxD : ℚ)
    (q : (Nat × ℚ) × List Vec) : Option (Nat × ℚ) :=
  match itemMatch dist refs maxD q.2 with
  | Except.ok (some bd) => some (q.1.1, bd)
  | _ => none

/-- Terminal failures of a face scan. -/
inductive FaceErr where
  | noCandidates
  | itemError
  deriving DecidableEq

/-- The whole `_run_face_search` (lines 397–481): empty enumeration is
reported ("No images found in directory.") before anything runs; otherwise
the loop runs, the updated cache snapshot is persisted (line 463) — the only
write to the backing store — and the matches are sorted by ascending
distance (stable `list.sort`) and displayed as `1 − distance` (lines
465–467).  The second component is the sequence of cache-store writes the
scan performed.  An exception escaping the loop reaches the `except` arm:
an error status, no persist. -/
def runFaceSearch (dist : Vec → Vec → ℚ) (extract : Nat → List Vec)
    (refs : List Vec) (maxD : ℚ) (store : Cache) (items : List (Nat × ℚ)) :
    Except FaceErr (List (Nat × ℚ)) × List Cache :=
  match items with
  | [] => (Except.error FaceErr.noCandidates, [])
  | i :: is =>
    match faceScanLoop dist extract refs maxD store (i :: is) with
    | Except.error _ => (Except.error FaceErr.itemError, [])
    | Except.ok o =>
      (Except.ok ((sortOn (fun x => x.2) o.hits).map fun x => (x.1, 1 - x.2)),
       [o.cache])

/-- The backing store after a sequence of wholesale overwrites. -/
def persistedStore (store : Cache) (writes : List Cache) : Cache :=
  writes.foldl (fun _ w => w) store

/-! ## Batched image encoding (`clip_encoder.py`, `encode_images`)

The loop takes `batch_size` slices, preprocesses and encodes each batch, and
concatenates.  There is no per-path error handling: `Image.open(p)` raising
inside a batch propagates out of the call.  `enc p = none` models a path
whose read/decode raises; `np.concatenate` of an empty list (no paths at
all) also raises. -/

/-- Split a list into consecutive batches of `bsz` elements (the
`range(0, len(paths), batch_size)` slicing; `batch_size` is positive in the
source — 32 by default). -/
def chunkList (bsz : Nat) : List α → List (List α)
  | [] => []
  | a :: l => (a :: l.take (bsz - 1)) :: chunkList bsz (l.drop (bsz - 1))
  termination_by l => l.length
  decreasing_by simp only [List.length_cons, List.length_drop]; omega

/-- Map a fallible function over a list, propagating the first failure
(a raised exception aborts the Python loop). -/
def mapOpt (f : α → Option β) : List α → Option (List β)
  | [] => some []
  | a :: l =>
    match f a, mapOpt f l with
    | some b, some bs => some (b :: bs)
    | _, _ => none

/-- Concatenation of the per-batch outputs (`np.concatenate`). -/
def concatAll : List (List α) → List α
  | [] => []
  | l :: ls => l ++ concatAll ls

/-- `CLIPEncoder.encode_images` (lines 74–92): encode batch by batch; any
failing path fails the whole call; the empty input fails at
`np.concatenate([])`. -/
def encodeImages (enc : Nat → Option Vec) (bsz : Nat) (paths : List Nat) :
    Option (List Vec) :=
  match mapOpt (fun b => mapOpt enc b) (chunkList bsz paths) with
  | none => none
  | some batches =>
    match batches with
    | [] => none
    | _ :: _ => some (concatAll batches)

/-! ## Face registry enrollment (`app.py`, `_on_enroll_face`, lines 296–305)

The registry is a JSON object name → `{embeddings: [{source, encoding}]}`;
names and source paths are modelled as identifiers. -/

/-- One enrolled embedding: its provenance (source photo path) and the face
encoding. -/
structure FaceEntry where
  source : Nat
  encoding : Vec
  deriving DecidableEq

/-- The registry snapshot: name ↦ enrolled embeddings. -/
abbrev Registry := List (Nat × List FaceEntry)

/-- Dictionary lookup on the registry. -/
def regLookup (name : Nat) : Registry → Option (List FaceEntry)
  | [] => none
  | e :: es => if e.1 = name then some e.2 else regLookup name es

/-- The embeddings enrolled under `name` (a missing name reads as the empty
list, as the source creates `{"embeddings": []}` on demand). -/
def registryEntries (reg : Registry) (name : Nat) : List FaceEntry :=
  (regLookup name reg).getD []

/-- `_on_enroll_face` registry mutation (lines 296–303): ensure the name has
an entry, then unconditionally append `{source, encoding}` (a shadowing cons
is the dict update). -/
def enrollFace (reg : Registry) (name : Nat) (prov : Nat) (enc : Vec) :
    Registry :=
  (name, registryEntries reg name ++ [⟨prov, enc⟩]) :: reg

/-! ## Concrete instances used by examples and witnesses -/

/-- A distance function reading the distance off the feature vector's head
(enough to realise any prescribed per-item distances). -/
def exDist : Vec → Vec → ℚ := fun _ f => f.headD 1

/-- An extractor giving the three items of the spec's absolute-threshold
example best distances `0.3`, `0.55`, `0.61` under `exDist`. -/
def exExtract : Nat → List Vec :=
  fun p => if p = 0 then [[3/10]] else if p = 1 then [[55/100]] else [[61/100]]

/-- A single reference encoding. -/
def exRefs : List Vec := [[0]]

/-- Three candidate items, all with mtime `0`. -/
def exItems : List (Nat × ℚ) := [(0, 0), (1, 0), (2, 0)]

/-- The cache snapshot the example scan persists. -/
def exFinalCache : Cache :=
  [(2, 0, [[61/100]]), (1, 0, [[55/100]]), (0, 0, [[3/10]])]

/-- An extractor that finds nothing anywhere (the exception path of
lines 433–434 yields the empty encoding list). -/
def exExtractNone : Nat → List Vec := fun _ => []

/-- An encoder failing on path 1 only. -/
def exEncFail : Nat → Option Vec := fun p => if p = 1 then none else some [1]

/-! ## Properties of the stable insertion sort -/

theorem mem_insertOn (key : α → ℚ) (x a : α) (l : List α) :
    a ∈ insertOn key x l ↔ a = x ∨ a ∈ l := by
  induction l with
  | nil => simp [insertOn]
  | cons y ys ih =>
    by_cases h : key x ≤ key y
    · simp [insertOn, h]
    · simp only [insertOn, if_neg h, List.mem_cons, ih]
      tauto

theorem insertOn_perm (key : α → ℚ) (x : α) (l : List α) :
    List.Perm (insertOn key x l) (x :: l) := by
  induction l with
  | nil => simp only [insertOn]; exact List.Perm.refl _
  | cons y ys ih =>
    by_cases h : key x ≤ key y
    · simp only [insertOn, if_pos h]; exact List.Perm.refl _
    · simp only [insertOn, if_neg h]
      exact (ih.cons y).trans (List.Perm.swap x y ys)

theorem sortOn_perm (key : α → ℚ) (l : List α) :
    List.Perm (sortOn key l) l := by
  induction l with
  | nil => exact List.Perm.refl _
  | cons x xs ih =>
    simp only [sortOn]
    exact (insertOn_perm key x (sortOn key xs)).trans (ih.cons x)

theorem insertOn_pairwise (key : α → ℚ) (x : α) (l : List α)
    (h : l.Pairwise fun a b => key a ≤ key b) :
    (insertOn key x l).Pairwise fun a b => key a ≤ key b := by
  induction l with
  | nil => simp [insertOn]
  | cons y ys ih =>
    rcases List.pairwise_cons.mp h with ⟨hy, hys⟩
    by_cases hxy : key x ≤ key y
    · simp only [insertOn, if_pos hxy]
      refine List.pairwise_cons.mpr ⟨?_, h⟩
      intro z hz
      rcases List.mem_cons.mp hz with rfl | hz
      · exact hxy
      · exact le_trans hxy (hy z hz)
    · simp only [insertOn, if_neg hxy]
      refine List.pairwise_cons.mpr ⟨?_, ih hys⟩
      intro z hz
      rcases (mem_insertOn key x z ys).mp hz with rfl | hz
      · exact le_of_lt (not_le.mp hxy)
      · exact hy z hz

theorem sortOn_pairwise (key : α → ℚ) (l : List α) :
    (sortOn key l).Pairwise fun a b => key a ≤ key b := by
  induction l with
  | nil => simp [sortOn]
  | cons x xs ih => exact insertOn_pairwise key x (sortOn key xs) ih

theorem insertOn_filter_pos (key : α → ℚ) (x : α) (k : ℚ) (hx : key x = k)
    (l : List α) :
    (insertOn key x l).filter (fun a => decide (key a = k))
      = x :: l.filter (fun a => decide (key a = k)) := by
  induction l with
  | nil => simp [insertOn, List.filter_cons, hx]
  | cons y ys ih =>
    by_cases hxy : key x ≤ key y
    · rw [insertOn, if_pos hxy]
      simp [List.filter_cons, hx]
    · have hy : ¬ key y = k := by
        intro hk
        exact hxy (by rw [hx, hk])
      rw [insertOn, if_neg hxy]
      simp [List.filter_cons, hy, ih]

theorem insertOn_filter_neg (key : α → ℚ) (x : α) (k : ℚ) (hx : ¬ key x = k)
    (l : List α) :
    (insertOn key x l).filter (fun a => decide (key a = k))
      = l.filter (fun a => decide (key a = k)) := by
  induction l with
  | nil => simp [insertOn, List.filter_cons, hx]
  | cons y ys ih =>
    by_cases hxy : key x ≤ key y
    · simp [insertOn, hxy, List.filter_cons, hx]
    · simp only [insertOn, if_neg hxy, List.filter_cons, ih]

/-- The sort is stable: for every key value, the elements carrying it appear
in the sorted output exactly in their original order. -/
theorem sortOn_stable (key : α → ℚ) (l : List α) (k : ℚ) :
    (sortOn key l).filter (fun a => decide (key a = k))
      = l.filter (fun a => decide (key a = k)) := by
  induction l with
  | nil => simp [sortOn]
  | cons x xs ih =>
    simp only [sortOn]
    by_cases hx : key x = k
    · rw [insertOn_filter_pos key x k hx, ih, List.filter_cons, if_pos (by simpa)]
    · rw [insertOn_filter_neg key x k hx, ih, List.filter_cons, if_neg (by simpa)]

/-! ## Properties of the argsort-based ranking -/

theorem mem_npArgsortAsc (sims : List ℚ) (i : Nat) :
    i ∈ npArgsortAsc sims ↔ i < sims.length := by
  unfold npArgsortAsc
  rw [(sortOn_perm _ _).mem_iff, List.mem_range]

theorem npArgsortAsc_sorted (sims : List ℚ) :
    (npArgsortAsc sims).Pairwise fun i j => sims.getD i 0 ≤ sims.getD j 0 :=
  sortOn_pairwise _ _

/-- The top-ranked score of the descending ranking is the maximum of the
similarity list (attained at some in-range index). -/
theorem topScore_spec (sims : List ℚ) (h : sims ≠ []) :
    (∀ i, i < sims.length → sims.getD i 0 ≤ topScore sims)
    ∧ ∃ i, i < sims.length ∧ sims.getD i 0 = topScore sims := by
  have hlen : (npArgsortAsc sims).length = sims.length :=
    (sortOn_perm _ _).length_eq.trans (List.length_range _)
  have hne : (npArgsortAsc sims).reverse ≠ [] := by
    intro hnil
    have : (npArgsortAsc sims).length = 0 := by
      simpa using congrArg List.length hnil
    exact h (List.eq_nil_of_length_eq_zero (hlen ▸ this))
  obtain ⟨t, rest, hr⟩ := List.exists_cons_of_ne_nil hne
  have hpair : ((npArgsortAsc sims).reverse).Pairwise
      fun i j => sims.getD j 0 ≤ sims.getD i 0 :=
    List.pairwise_reverse.mpr (npArgsortAsc_sorted sims)
  have htop : topScore sims = sims.getD t 0 := by
    unfold topScore
    rw [hr]
    rfl
  have hmem : ∀ i, i ∈ (npArgsortAsc sims).reverse ↔ i < sims.length := by
    intro i
    rw [List.mem_reverse, mem_npArgsortAsc]
  constructor
  · intro i hi
    have : i ∈ t :: rest := hr ▸ (hmem i).mpr hi
    rcases List.mem_cons.mp this with rfl | hrest
    · exact le_of_eq htop.symm
    · rw [htop]
      exact (List.pairwise_cons.mp (hr ▸ hpair)).1 i hrest
  · refine ⟨t, ?_, htop.symm⟩
    exact (hmem t).mp (hr ▸ List.mem_cons_self t rest)

/-! ## Properties of the distance aggregation -/

theorem optMin2_none_right (a : Option ℚ) : optMin2 a none = a := by
  cases a <;> rfl

theorem optMin2_assoc (a b c : Option ℚ) :
    optMin2 (optMin2 a b) c = optMin2 a (optMin2 b c) := by
  cases a <;> cases b <;> cases c <;> simp [optMin2, min_assoc]

theorem bestStep_eq (best md : Option ℚ) : bestStep best md = optMin2 best md := by
  cases md with
  | none => cases best <;> rfl
  | some d =>
    cases best with
    | none => rfl
    | some b =>
      simp only [bestStep, optMin2, Option.some.injEq]
      rcases lt_or_ge d b with hdb | hdb
      · rw [if_pos hdb, min_eq_right (le_of_lt hdb)]
      · rw [if_neg (not_lt.mpr hdb), min_eq_left hdb]

theorem minQ_cons (x : ℚ) (xs : List ℚ) :
    minQ (x :: xs) = optMin2 (some x) (minQ xs) := by
  cases h : minQ xs <;> simp [minQ, h, optMin2]

theorem minQ_append (l1 l2 : List ℚ) :
    minQ (l1 ++ l2) = optMin2 (minQ l1) (minQ l2) := by
  induction l1 with
  | nil => simp [minQ, optMin2]
  | cons x xs ih =>
    rw [List.cons_append, minQ_cons, ih, ← optMin2_assoc, ← minQ_cons]

theorem bestDistance_fold (dist : Vec → Vec → ℚ) (refs : List Vec)
    (features : List Vec) (acc : Option ℚ) :
    features.foldl
        (fun best f => bestStep best (minQ (refs.map fun r => dist r f))) acc
      = optMin2 acc (minQ (productDistances dist refs features)) := by
  induction features generalizing acc with
  | nil => simp [productDistances, minQ, optMin2_none_right]
  | cons f fs ih =>
    rw [List.foldl_cons, ih, bestStep_eq, optMin2_assoc]
    rw [productDistances, minQ_append]

/-- `best_distance` is the minimum over the Cartesian product of the item's
features and the reference encodings. -/
theorem bestDistance_eq_product (dist : Vec → Vec → ℚ) (refs : List Vec)
    (features : List Vec) :
    bestDistance dist refs features
      = minQ (productDistances dist refs features) := by
  unfold bestDistance
  rw [bestDistance_fold]
  rfl

theorem minQ_isSome (l : List ℚ) (h : l ≠ []) : ∃ m, minQ l = some m := by
  cases l with
  | nil => exact absurd rfl h
  | cons x xs =>
    simp only [minQ]
    cases minQ xs <;> exact ⟨_, rfl⟩

theorem bestDistance_isSome (dist : Vec → Vec → ℚ) (refs features : List Vec)
    (h1 : refs ≠ []) (h2 : features ≠ []) :
    ∃ bd, bestDistance dist refs features = some bd := by
  rw [bestDistance_eq_product]
  apply minQ_isSome
  cases features with
  | nil => exact absurd rfl h2
  | cons f fs =>
    simp only [productDistances]
    intro hnil
    rcases List.append_eq_nil.mp hnil with ⟨hmap, _⟩
    exact h1 (List.map_eq_nil_iff.mp hmap)

/-! ## Properties of the cache snapshot -/

theorem alookup_cachePut_self (p : Nat) (m : ℚ) (fs : List Vec) (c : Cache) :
    alookup p (cachePut p m fs c) = some (m, fs) := by
  simp [alookup, cachePut]

theorem alookup_cachePut_ne (p q : Nat) (m : ℚ) (fs : List Vec) (c : Cache)
    (h : q ≠ p) : alookup q (cachePut p m fs c) = alookup q c := by
  simp [alookup, cachePut, Ne.symm h]

theorem cacheHit_congr {c1 c2 : Cache} (p : Nat) (m : ℚ)
    (h : alookup p c1 = alookup p c2) : cacheHit c1 p m = cacheHit c2 p m := by
  unfold cacheHit
  rw [h]

theorem cacheHit_cachePut_self (p : Nat) (m : ℚ) (fs : List Vec) (c : Cache) :
    cacheHit (cachePut p m fs c) p m = some fs := by
  unfold cacheHit
  rw [alookup_cachePut_self]
  simp

theorem cacheHit_cachePut_ne (p q : Nat) (m m' : ℚ) (fs : List Vec) (c : Cache)
    (h : q ≠ p) : cacheHit (cachePut p m fs c) q m' = cacheHit c q m' :=
  cacheHit_congr q m' (alookup_cachePut_ne p q m fs c h)

/-! ## Small `Forall₂` and `Nodup` helpers -/

theorem forall2_exists_of_mem {α β : Type _} {R : α → β → Prop} :
    ∀ {l1 : List α} {l2 : List β}, List.Forall₂ R l1 l2 →
    ∀ a ∈ l1, ∃ b, R a b := by
  intro l1 l2 h
  induction h with
  | nil => intro a ha; exact absurd ha (List.not_mem_nil a)
  | cons hR _ ih =>
    intro a ha
    rcases List.mem_cons.mp ha with rfl | ha'
    · exact ⟨_, hR⟩
    · exact ih a ha'

theorem forall2_mem_zip {α β : Type _} {R : α → β → Prop} :
    ∀ {l1 : List α} {l2 : List β}, List.Forall₂ R l1 l2 →
    ∀ q ∈ l1.zip l2, R q.1 q.2 := by
  intro l1 l2 h
  induction h with
  | nil => intro q hq; exact absurd hq (List.not_mem_nil q)
  | cons hR _ ih =>
    intro q hq
    rcases List.mem_cons.mp hq with rfl | hq'
    · exact hR
    · exact ih q hq'

theorem nodup_fst_eq {l : List (Nat × ℚ)} (h : (l.map Prod.fst).Nodup)
    {p : Nat} {a b : ℚ} (ha : (p, a) ∈ l) (hb : (p, b) ∈ l) : a = b := by
  induction l with
  | nil => exact absurd ha (List.not_mem_nil _)
  | cons x xs ih =>
    simp only [List.map_cons, List.nodup_cons] at h
    rcases List.mem_cons.mp ha with ha' | ha' <;>
      rcases List.mem_cons.mp hb with hb' | hb'
    · injection ha'.trans hb'.symm
    · exact absurd (List.mem_map_of_mem Prod.fst hb') (by rw [← ha'] at h; exact h.1)
    · exact absurd (List.mem_map_of_mem Prod.fst ha') (by rw [← hb'] at h; exact h.1)
    · exact ih h.2 ha' hb'

/-! ## Characterization of the face scan loop -/

/-- A successful loop run: the match list is exactly the per-item
contributions in enumeration order, every feature list the loop used passed
the comparison step without raising, and cache entries at paths outside the
scanned items are untouched. -/
theorem faceScanLoop_spec (dist : Vec → Vec → ℚ) (extract : Nat → List Vec)
    (refs : List Vec) (maxD : ℚ) :
    ∀ (items : List (Nat × ℚ)) (c : Cache) (o : FaceScanOut),
    faceScanLoop dist extract refs maxD c items = Except.ok o →
    o.hits = (items.zip o.feats).filterMap (contribOf dist refs maxD)
    ∧ List.Forall₂ (fun _pm f => ∃ v, itemMatch dist refs maxD f = Except.ok v)
        items o.feats
    ∧ ∀ q, q ∉ items.map Prod.fst → alookup q o.cache = alookup q c := by
  intro items
  induction items with
  | nil =>
    intro c o h
    simp only [faceScanLoop] at h
    cases h
    exact ⟨rfl, List.Forall₂.nil, fun q _ => rfl⟩
  | cons pm rest ih =>
    obtain ⟨p, m⟩ := pm
    intro c o h
    simp only [faceScanLoop] at h
    split at h
    case h_1 fs hc =>
      split at h
      case h_1 => exact absurd h (by simp)
      case h_2 om him =>
        split at h
        case h_1 => exact absurd h (by simp)
        case h_2 o' hrest =>
          cases h
          obtain ⟨ha, hb, hcp⟩ := ih c o' hrest
          refine ⟨?_, List.Forall₂.cons ⟨om, him⟩ hb, ?_⟩
          · show pushMatch p om o'.hits = _
            rw [List.zip_cons_cons, List.filterMap_cons, ha]
            cases om <;> simp [contribOf, him, pushMatch]
          · intro q hq
            simp only [List.map_cons, List.mem_cons, not_or] at hq
            exact hcp q hq.2
    case h_2 hc =>
      split at h
      case h_1 => exact absurd h (by simp)
      case h_2 om him =>
        split at h
        case h_1 => exact absurd h (by simp)
        case h_2 o' hrest =>
          cases h
          obtain ⟨ha, hb, hcp⟩ := ih _ o' hrest
          refine ⟨?_, List.Forall₂.cons ⟨om, him⟩ hb, ?_⟩
          · show pushMatch p om o'.hits = _
            rw [List.zip_cons_cons, List.filterMap_cons, ha]
            cases om <;> simp [contribOf, him, pushMatch]
          · intro q hq
            simp only [List.map_cons, List.mem_cons, not_or] at hq
            rw [hcp q hq.2]
            exact alookup_cachePut_ne p q m (extract p) c hq.1

/-- After a successful run over items with pairwise-distinct paths, every
item's final cache entry holds (under the item's current mtime) exactly the
feature list the loop used for it, and that list is the one determined by
the entry cache: the cached features on a hit, the fresh extraction on a
miss.  `cref` generalizes the entry cache for the induction; instantiating
`cref := c` gives the statement about the actual entry cache. -/
theorem faceScanLoop_cache_entries (dist : Vec → Vec → ℚ)
    (extract : Nat → List Vec) (refs : List Vec) (maxD : ℚ) (cref : Cache) :
    ∀ (items : List (Nat × ℚ)) (c : Cache) (o : FaceScanOut),
    faceScanLoop dist extract refs maxD c items = Except.ok o →
    (items.map Prod.fst).Nodup →
    (∀ pm ∈ items, cacheHit cref pm.1 pm.2 = cacheHit c pm.1 pm.2) →
    List.Forall₂ (fun pm f =>
      f = (cacheHit cref pm.1 pm.2).getD (extract pm.1)
      ∧ cacheHit o.cache pm.1 pm.2 = some f) items o.feats := by
  intro items
  induction items with
  | nil =>
    intro c o h _ _
    simp only [faceScanLoop] at h
    cases h
    exact List.Forall₂.nil
  | cons pm rest ih =>
    obtain ⟨p, m⟩ := pm
    intro c o h hnd hagree
    rw [List.map_cons, List.nodup_cons] at hnd
    obtain ⟨hpnot, hndr⟩ := hnd
    have hagp : cacheHit cref p m = cacheHit c p m :=
      hagree (p, m) (List.mem_cons_self _ _)
    simp only [faceScanLoop] at h
    split at h
    case h_1 fs hc =>
      split at h
      case h_1 => exact absurd h (by simp)
      case h_2 om him =>
        split at h
        case h_1 => exact absurd h (by simp)
        case h_2 o' hrest =>
          cases h
          have hcp := (faceScanLoop_spec dist extract refs maxD rest c o' hrest).2.2
          refine List.Forall₂.cons ⟨?_, ?_⟩ ?_
          · rw [hagp, hc]; rfl
          · show cacheHit o'.cache p m = some fs
            rw [cacheHit_congr p m (hcp p hpnot), hc]
          · exact ih c o' hrest hndr fun q hq => hagree q (List.mem_cons_of_mem _ hq)
    case h_2 hc =>
      split at h
      case h_1 => exact absurd h (by simp)
      case h_2 om him =>
        split at h
        case h_1 => exact absurd h (by simp)
        case h_2 o' hrest =>
          cases h
          have hcp := (faceScanLoop_spec dist extract refs maxD rest _ o' hrest).2.2
          refine List.Forall₂.cons ⟨?_, ?_⟩ ?_
          · rw [hagp, hc]; rfl
          · show cacheHit o'.cache p m = some (extract p)
            rw [cacheHit_congr p m (hcp p hpnot)]
            exact cacheHit_cachePut_self p m (extract p) c
          · refine ih _ o' hrest hndr ?_
            intro q hq
            rw [hagree q (List.mem_cons_of_mem _ hq)]
            have hmm : q.1 ∈ rest.map Prod.fst := List.mem_map_of_mem Prod.fst hq
            have hqp : q.1 ≠ p := fun hqp => hpnot (hqp ▸ hmm)
            exact (cacheHit_cachePut_ne p q.1 m q.2 (extract p) c hqp).symm

/-- A successful run performs exactly one extraction call per cache miss:
`calls` is the number of scanned items whose path+mtime is absent from the
entry cache. -/
theorem faceScanLoop_calls (dist : Vec → Vec → ℚ) (extract : Nat → List Vec)
    (refs : List Vec) (maxD : ℚ) (cref : Cache) :
    ∀ (items : List (Nat × ℚ)) (c : Cache) (o : FaceScanOut),
    faceScanLoop dist extract refs maxD c items = Except.ok o →
    (items.map Prod.fst).Nodup →
    (∀ pm ∈ items, cacheHit cref pm.1 pm.2 = cacheHit c pm.1 pm.2) →
    o.calls = (items.filter fun q => (cacheHit cref q.1 q.2).isNone).length := by
  intro items
  induction items with
  | nil =>
    intro c o h _ _
    simp only [faceScanLoop] at h
    cases h
    rfl
  | cons pm rest ih =>
    obtain ⟨p, m⟩ := pm
    intro c o h hnd hagree
    rw [List.map_cons, List.nodup_cons] at hnd
    obtain ⟨hpnot, hndr⟩ := hnd
    have hagp : cacheHit cref p m = cacheHit c p m :=
      hagree (p, m) (List.mem_cons_self _ _)
    simp only [faceScanLoop] at h
    split at h
    case h_1 fs hc =>
      split at h
      case h_1 => exact absurd h (by simp)
      case h_2 om him =>
        split at h
        case h_1 => exact absurd h (by simp)
        case h_2 o' hrest =>
          cases h
          have hrec := ih c o' hrest hndr
            fun q hq => hagree q (List.mem_cons_of_mem _ hq)
          show o'.calls = _
          rw [List.filter_cons, if_neg (by simp [hagp, hc]), hrec]
    case h_2 hc =>
      split at h
      case h_1 => exact absurd h (by simp)
      case h_2 om him =>
        split at h
        case h_1 => exact absurd h (by simp)
        case h_2 o' hrest =>
          cases h
          have hrec := ih _ o' hrest hndr ?_
          · show o'.calls + 1 = _
            rw [List.filter_cons, if_pos (by simp [hagp, hc]), List.length_cons,
              hrec]
          · intro q hq
            rw [hagree q (List.mem_cons_of_mem _ hq)]
            have hmm : q.1 ∈ rest.map Prod.fst := List.mem_map_of_mem Prod.fst hq
            have hqp : q.1 ≠ p := fun hqp => hpnot (hqp ▸ hmm)
            exact (cacheHit_cachePut_ne p q.1 m q.2 (extract p) c hqp).symm

/-- A run in which every item is a cache hit with features that pass the
comparison step: the loop succeeds, leaves the cache untouched, uses the
cached feature lists, and performs zero extraction calls. -/
theorem faceScanLoop_all_hit (dist : Vec → Vec → ℚ) (extract : Nat → List Vec)
    (refs : List Vec) (maxD : ℚ) :
    ∀ (items : List (Nat × ℚ)) (fs : List (List Vec)) (c : Cache),
    List.Forall₂ (fun pm f => cacheHit c pm.1 pm.2 = some f) items fs →
    List.Forall₂ (fun _pm f => ∃ v, itemMatch dist refs maxD f = Except.ok v)
      items fs →
    faceScanLoop dist extract refs maxD c items
      = Except.ok ⟨c, (items.zip fs).filterMap (contribOf dist refs maxD), fs, 0⟩ := by
  intro items
  induction items with
  | nil =>
    intro fs c h1 _
    cases h1
    simp [faceScanLoop]
  | cons pm rest ih =>
    obtain ⟨p, m⟩ := pm
    intro fs c h1 h2
    cases h1 with
    | cons hhit h1' =>
      cases h2 with
      | cons hok h2' =>
        obtain ⟨v, hv⟩ := hok
        simp only [faceScanLoop, hhit, hv, ih _ c h1' h2']
        rw [List.zip_cons_cons, List.filterMap_cons]
        cases v <;> simp [contribOf, hv, pushMatch]

/-! ## Properties of batched encoding -/

theorem mapOpt_eq_some_of_forall (f : α → Option β) :
    ∀ (l : List α), (∀ a ∈ l, (f a).isSome) →
    mapOpt f l = some (l.filterMap f) := by
  intro l
  induction l with
  | nil => intro _; rfl
  | cons a t ih =>
    intro h
    obtain ⟨b, hb⟩ := Option.isSome_iff_exists.mp (h a (List.mem_cons_self _ _))
    simp [mapOpt, hb, ih fun x hx => h x (List.mem_cons_of_mem _ hx),
      List.filterMap_cons]

theorem mapOpt_eq_none_of_mem (f : α → Option β) :
    ∀ (l : List α) (a : α), a ∈ l → f a = none → mapOpt f l = none := by
  intro l
  induction l with
  | nil => intro a ha; exact absurd ha (List.not_mem_nil a)
  | cons x t ih =>
    intro a ha hfa
    rcases List.mem_cons.mp ha with rfl | ha'
    · cases mapOpt f t <;> simp [mapOpt, hfa]
    · cases hfx : f x <;> simp [mapOpt, hfx, ih a ha' hfa]

theorem chunkList_nil (bsz : Nat) : chunkList bsz ([] : List α) = [] := by
  rw [chunkList]

theorem mapOpt_cons_none_left (f : α → Option β) (a : α) (l : List α)
    (h : f a = none) : mapOpt f (a :: l) = none := by
  cases h2 : mapOpt f l <;> simp [mapOpt, h]

theorem mapOpt_cons_none_right (f : α → Option β) (a : α) (l : List α)
    (h : mapOpt f l = none) : mapOpt f (a :: l) = none := by
  cases h1 : f a <;> simp [mapOpt, h, h1]

theorem mapOpt_cons_some (f : α → Option β) (a : α) (l : List α) {b : β}
    {bs : List β} (h1 : f a = some b) (h2 : mapOpt f l = some bs) :
    mapOpt f (a :: l) = some (b :: bs) := by
  simp [mapOpt, h1, h2]

theorem chunk_mapOpt_ok (enc : Nat → Option Vec) (bsz : Nat) :
    ∀ (n : Nat) (l : List Nat), l.length ≤ n → (∀ p ∈ l, (enc p).isSome) →
    ∃ out, mapOpt (fun b => mapOpt enc b) (chunkList bsz l) = some out
      ∧ concatAll out = l.filterMap enc ∧ (l ≠ [] → out ≠ []) := by
  intro n
  induction n with
  | zero =>
    intro l hl _
    rw [List.length_eq_zero.mp (Nat.le_zero.mp hl)]
    exact ⟨[], by rw [chunkList_nil]; rfl, rfl, fun h => absurd rfl h⟩
  | succ n ih =>
    intro l hl hall
    cases l with
    | nil => exact ⟨[], by rw [chunkList_nil]; rfl, rfl, fun h => absurd rfl h⟩
    | cons a t =>
      have ht : t.length ≤ n := Nat.succ_le_succ_iff.mp (by simpa using hl)
      have h1 : ∀ p ∈ a :: t.take (bsz - 1), (enc p).isSome := by
        intro p hp
        rcases List.mem_cons.mp hp with rfl | hp'
        · exact hall p (List.mem_cons_self _ _)
        · exact hall p (List.mem_cons_of_mem _ ((List.take_sublist _ _).subset hp'))
      have h2 : ∀ p ∈ t.drop (bsz - 1), (enc p).isSome := fun p hp =>
        hall p (List.mem_cons_of_mem _ ((List.drop_sublist _ _).subset hp))
      obtain ⟨out, hout, hflat, _⟩ := ih (t.drop (bsz - 1))
        (le_trans (by rw [List.length_drop]; omega) ht) h2
      refine ⟨(a :: t.take (bsz - 1)).filterMap enc :: out, ?_, ?_, ?_⟩
      · rw [chunkList]
        exact mapOpt_cons_some _ _ _ (mapOpt_eq_some_of_forall enc _ h1) hout
      · show List.filterMap enc (a :: t.take (bsz - 1)) ++ concatAll out = _
        rw [hflat, ← List.filterMap_append, List.cons_append, List.take_append_drop]
      · intro _ h
        exact List.cons_ne_nil _ _ h

theorem chunk_mapOpt_fail (enc : Nat → Option Vec) (bsz : Nat) :
    ∀ (n : Nat) (l : List Nat), l.length ≤ n → (∃ p ∈ l, enc p = none) →
    mapOpt (fun b => mapOpt enc b) (chunkList bsz l) = none := by
  intro n
  induction n with
  | zero =>
    intro l hl hex
    obtain ⟨p, hp, _⟩ := hex
    rw [List.length_eq_zero.mp (Nat.le_zero.mp hl)] at hp
    exact absurd hp (List.not_mem_nil p)
  | succ n ih =>
    intro l hl hex
    cases l with
    | nil =>
      obtain ⟨p, hp, _⟩ := hex
      exact absurd hp (List.not_mem_nil p)
    | cons a t =>
      have ht : t.length ≤ n := Nat.succ_le_succ_iff.mp (by simpa using hl)
      obtain ⟨p, hp, hpn⟩ := hex
      rw [chunkList]
      have hsplit : p = a ∨ p ∈ t.take (bsz - 1) ∨ p ∈ t.drop (bsz - 1) := by
        rcases List.mem_cons.mp hp with rfl | hp'
        · exact Or.inl rfl
        · rw [← List.take_append_drop (bsz - 1) t] at hp'
          exact Or.inr (List.mem_append.mp hp')
      rcases hsplit with rfl | hfirst | hdrop
      · exact mapOpt_cons_none_left _ _ _
          (mapOpt_eq_none_of_mem enc _ p (List.mem_cons_self _ _) hpn)
      · exact mapOpt_cons_none_left _ _ _
          (mapOpt_eq_none_of_mem enc _ p (List.mem_cons_of_mem _ hfirst) hpn)
      · exact mapOpt_cons_none_right _ _ _
          (ih (t.drop (bsz - 1))
            (le_trans (by rw [List.length_drop]; omega) ht) ⟨p, hdrop, hpn⟩)

theorem encodeImages_ok (enc : Nat → Option Vec) (bsz : Nat)
    (paths : List Nat) (hne : paths ≠ [])
    (hall : ∀ p ∈ paths, (enc p).isSome) :
    encodeImages enc bsz paths = some (paths.filterMap enc) := by
  obtain ⟨out, hout, hflat, hone⟩ :=
    chunk_mapOpt_ok enc bsz paths.length paths le_rfl hall
  unfold encodeImages
  rw [hout]
  cases hcase : out with
  | nil => exact absurd hcase (hone hne)
  | cons c1 cs =>
    rw [← hflat, hcase]

theorem encodeImages_fail (enc : Nat → Option Vec) (bsz : Nat)
    (paths : List Nat) (h : ∃ p ∈ paths, enc p = none) :
    encodeImages enc bsz paths = none := by
  unfold encodeImages
  rw [chunk_mapOpt_fail enc bsz paths.length paths le_rfl h]


/-! ## Further shared helpers -/

theorem filterMap_length_of_forall (f : α → Option β) :
    ∀ l : List α, (∀ a ∈ l, (f a).isSome) →
    (l.filterMap f).length = l.length := by
  intro l
  induction l with
  | nil => intro _; rfl
  | cons a t ih =>
    intro h
    obtain ⟨b, hb⟩ := Option.isSome_iff_exists.mp (h a (List.mem_cons_self _ _))
    simp [List.filterMap_cons, hb, ih fun x hx => h x (List.mem_cons_of_mem _ hx)]

/-- `runSearchRank` with its local bindings unfolded. -/
theorem runSearchRank_eq (paths : List Nat) (sims : List ℚ) (pct : ℚ) :
    runSearchRank paths sims pct
      = ((npArgsortAsc sims).reverse).filterMap fun idx =>
          if (if 0 < topScore sims then topScore sims * (pct / 100) else 0)
              ≤ sims.getD idx 0
          then some (paths.getD idx 0, sims.getD idx 0) else none := rfl

/-- An item whose feature list (cached on a valid hit, extracted otherwise)
is empty contributes nothing to the match list. -/
theorem faceScanLoop_empty_features_excluded (dist : Vec → Vec → ℚ)
    (extract : Nat → List Vec) (refs : List Vec) (maxD : ℚ)
    (items : List (Nat × ℚ)) (c : Cache) (o : FaceScanOut) (p : Nat) (m : ℚ)
    (hok : faceScanLoop dist extract refs maxD c items = Except.ok o)
    (hnd : (items.map Prod.fst).Nodup) (hmem : (p, m) ∈ items)
    (hempty : (cacheHit c p m).getD (extract p) = []) :
    ∀ s, (p, s) ∉ o.hits := by
  intro s hs
  obtain ⟨ha, _, _⟩ := faceScanLoop_spec dist extract refs maxD items c o hok
  have hentries := faceScanLoop_cache_entries dist extract refs maxD c items c
    o hok hnd fun _ _ => rfl
  rw [ha, List.mem_filterMap] at hs
  obtain ⟨q, hqzip, hqc⟩ := hs
  obtain ⟨⟨p2, m2⟩, f⟩ := q
  unfold contribOf at hqc
  cases him : itemMatch dist refs maxD f with
  | error e => simp [him] at hqc
  | ok om =>
    cases om with
    | none => simp [him] at hqc
    | some bd =>
      simp only [him, Option.some.injEq, Prod.mk.injEq] at hqc
      obtain ⟨hp2, hbd⟩ := hqc
      have hpair := forall2_mem_zip hentries _ hqzip
      have hfeq : f = (cacheHit c p2 m2).getD (extract p2) := hpair.1
      have hmold : (p2, m2) ∈ items := (List.of_mem_zip hqzip).1
      rw [hp2] at hmold
      have hm2 : m2 = m := nodup_fst_eq hnd hmold hmem
      rw [hp2, hm2, hempty] at hfeq
      rw [hfeq] at him
      exact absurd him (by simp [itemMatch])


/-! ## Claim theorems -/

/-- C2: for a text search with threshold percent `pct` over a non-empty
similarity list, the top-ranked score is the maximum similarity (it bounds
every score and is attained); an item survives the relative threshold
exactly when its similarity reaches `topScore * (pct / 100)` when the top
score is positive, and exactly when it is non-negative otherwise; and on
scores `[0.9, 0.6, 0.45, 0.2]` with `pct = 50` the cutoff is `0.45` and
exactly the first three items survive. -/
theorem c2_relative_threshold (paths : List Nat) (sims : List ℚ) (pct : ℚ)
    (h : sims ≠ []) :
    (∀ i, i < sims.length → sims.getD i 0 ≤ topScore sims)
    ∧ (∃ i, i < sims.length ∧ sims.getD i 0 = topScore sims)
    ∧ (∀ idx, idx < sims.length →
        ((paths.getD idx 0, sims.getD idx 0) ∈ runSearchRank paths sims pct ↔
          (if 0 < topScore sims then topScore sims * (pct / 100) else 0)
            ≤ sims.getD idx 0))
    ∧ runSearchRank [0, 1, 2, 3] [9/10, 6/10, 45/100, 2/10] 50
        = [(0, 9/10), (1, 6/10), (2, 45/100)] := by
  obtain ⟨hmax, hex⟩ := topScore_spec sims h
  refine ⟨hmax, hex, ?_, ?_⟩
  · intro idx hidx
    rw [runSearchRank_eq, List.mem_filterMap]
    set cut := if 0 < topScore sims then topScore sims * (pct / 100) else 0
      with hcutdef
    constructor
    · rintro ⟨j, _hjmem, hjeq⟩
      split at hjeq
      case isTrue hle =>
        rw [Option.some.injEq, Prod.mk.injEq] at hjeq
        rw [← hjeq.2]
        exact hle
      case isFalse => exact absurd hjeq (by simp)
    · intro hcut
      refine ⟨idx, ?_, ?_⟩
      · rw [List.mem_reverse, mem_npArgsortAsc]
        exact hidx
      · rw [if_pos hcut]
  · norm_num [runSearchRank, topScore, npArgsortAsc, sortOn, insertOn,
      List.range_succ, List.range_zero, List.filterMap_cons]

/-- Witness for C2 at the spec's concrete relative-threshold example. -/
theorem c2_relative_threshold_witness :
    runSearchRank [0, 1, 2, 3] [9/10, 6/10, 45/100, 2/10] 50
      = [(0, 9/10), (1, 6/10), (2, 45/100)] :=
  (c2_relative_threshold [0, 1, 2, 3] [9/10, 6/10, 45/100, 2/10] 50
    (by simp)).2.2.2

/-- C4 counterexample: in the SQL-backed ranker two rows scoring equally
(`dot [1] [1] = 1` for both) come out as ids `[1, 0]` — the reverse of
their enumeration order `[0, 1]` — because `np.argsort(scores)[::-1]`
reverses the ascending tie order.  This refutes the claim that any two
items with equal scores appear in their original enumeration order. -/
theorem c4_tie_order_counterexample :
    (searchByText [1] [⟨0, [1]⟩, ⟨1, [1]⟩] 20 0).map SearchResult.id = [1, 0]
    ∧ (searchByText [1] [⟨0, [1]⟩, ⟨1, [1]⟩] 20 0).map SearchResult.score
        = [1, 1] := by
  constructor <;>
    norm_num [searchByText, dot, npArgsortAsc, sortOn, insertOn,
      List.range_succ, List.range_zero]

/-- C4 (amended): the face ranker's result sort is ascending by distance
and stable — ties keep enumeration order; the text rankers produce a
descending-by-score order, but their equal-score ties appear in REVERSE
enumeration order, because the descending ranking is the reversal of the
stable ascending argsort (shown concretely on two equal scores). -/
theorem c4_sort_order_amended :
    (∀ l : List (Nat × ℚ),
      ((sortOn (fun x => x.2) l).Pairwise fun a b => a.2 ≤ b.2)
      ∧ ∀ k : ℚ, (sortOn (fun x => x.2) l).filter (fun x => decide (x.2 = k))
          = l.filter fun x => decide (x.2 = k))
    ∧ (∀ sims : List ℚ,
        ((npArgsortAsc sims).reverse).Pairwise
          fun i j => sims.getD j 0 ≤ sims.getD i 0)
    ∧ (npArgsortAsc [1, 1]).reverse = [1, 0] := by
  refine ⟨fun l => ⟨sortOn_pairwise _ l, fun k => sortOn_stable _ l k⟩,
    fun sims => List.pairwise_reverse.mpr (npArgsortAsc_sorted sims), ?_⟩
  norm_num [npArgsortAsc, sortOn, insertOn, List.range_succ, List.range_zero]

/-- C7 counterexample: the SQL-backed `search_by_text` returns the empty
result list — an ordinary successful return; the function has no failure
outcome for this case — when the row enumeration is empty, rather than
reporting a NoCandidates failure. -/
theorem c7_sql_empty_success_counterexample :
    searchByText [1] [] 20 (18/100) = [] := rfl

/-- C7 (amended): the directory-based scans report empty enumeration as a
distinct no-candidates status and never as an empty success (both the face
scan and the desktop text search), while the SQL-backed text search treats
empty enumeration as an empty success. -/
theorem c7_no_candidates_amended :
    (∀ (dist : Vec → Vec → ℚ) (extract : Nat → List Vec) (refs : List Vec)
        (maxD : ℚ) (store : Cache),
      runFaceSearch dist extract refs maxD store []
        = (Except.error FaceErr.noCandidates, []))
    ∧ (∀ (encodeImg : Nat → Option Vec) (textEmb : Vec) (pct : ℚ),
        runTextSearch encodeImg textEmb [] pct
          = Except.error TextErr.noImages)
    ∧ (∀ (textEmb : Vec) (limit : Nat) (minScore : ℚ),
        searchByText textEmb [] limit minScore = []) :=
  ⟨fun _ _ _ _ _ => rfl, fun _ _ _ => rfl, fun _ _ _ => rfl⟩


/-- C8 counterexample: with an encoder that decodes path 0 but whose read
of path 1 raises (`exEncFail`), the batched encode of `[0, 1]` produces no
output at all — the whole call fails — instead of a same-length output with
an empty result substituted for the failing path. -/
theorem c8_batch_failure_counterexample :
    encodeImages exEncFail 32 [0, 1] = none := by
  norm_num [encodeImages, chunkList, mapOpt, exEncFail]

/-- C8 (amended): when every path decodes successfully, `encode_images`
returns a same-length, order-preserving output (the per-path encodings in
input order); but a read/decode failure of any single path fails the whole
batched call — no empty result is substituted for the failing path. -/
theorem c8_encode_images_amended (enc : Nat → Option Vec) (bsz : Nat)
    (paths : List Nat) :
    (paths ≠ [] → (∀ p ∈ paths, (enc p).isSome) →
      encodeImages enc bsz paths = some (paths.filterMap enc)
      ∧ (paths.filterMap enc).length = paths.length)
    ∧ ((∃ p ∈ paths, enc p = none) → encodeImages enc bsz paths = none) :=
  ⟨fun hne hall => ⟨encodeImages_ok enc bsz paths hne hall,
      filterMap_length_of_forall enc paths hall⟩,
    encodeImages_fail enc bsz paths⟩

/-- Witness for C8 on a concrete all-successful batch. -/
theorem c8_encode_images_amended_witness :
    encodeImages (fun _ => some [1]) 32 [0, 1] = some [[1], [1]]
    ∧ (([0, 1].filterMap fun _ => some ([1] : Vec))).length = 2 := by
  obtain ⟨h1, h2⟩ := (c8_encode_images_amended (fun _ => some [1]) 32 [0, 1]).1
    (by simp) (by intro p _; rfl)
  exact ⟨by rw [h1]; rfl, h2⟩

/-- C9 counterexample: enrolling the same provenance (source photo `5`)
twice under the same name succeeds both times and records the provenance
twice; the registry is changed rather than left unchanged, and no
DuplicateProvenance failure exists on this code path. -/
theorem c9_duplicate_enroll_counterexample :
    (registryEntries (enrollFace (enrollFace [] 0 5 [1]) 0 5 [1]) 0).map
        FaceEntry.source = [5, 5] := by
  norm_num [registryEntries, enrollFace, regLookup]

/-- C9 (amended): enrollment appends unconditionally: enrolling
`(name, provenance)` always appends the new entry to the name's embedding
list — even when that provenance is already recorded, so duplicates
accumulate — and leaves every other name's entries unchanged. -/
theorem c9_enroll_append_amended (reg : Registry) (name prov : Nat)
    (enc : Vec) :
    registryEntries (enrollFace reg name prov enc) name
      = registryEntries reg name ++ [⟨prov, enc⟩]
    ∧ ∀ other, other ≠ name →
        registryEntries (enrollFace reg name prov enc) other
          = registryEntries reg other := by
  constructor
  · simp [registryEntries, enrollFace, regLookup]
  · intro other hne
    simp [registryEntries, enrollFace, regLookup, Ne.symm hne]

/-- Witness for C9 on a concrete enrollment. -/
theorem c9_enroll_append_amended_witness :
    registryEntries (enrollFace [] 0 5 [1]) 0 = [⟨5, [1]⟩]
    ∧ registryEntries (enrollFace [] 0 5 [1]) 1 = [] := by
  have h := c9_enroll_append_amended [] 0 5 [1]
  exact ⟨by rw [h.1]; rfl, by rw [h.2 1 (by decide)]; rfl⟩


/-- C1: per-item scoring is best-match over the Cartesian product: for a
non-empty reference set, an item's `best_distance` is the minimum distance
over (item features × reference encodings), and it is defined (`some`) for
every item owning at least one feature vector — e.g. features `[v1, v2]`
against the single reference `[r1]` score `min (dist r1 v1) (dist r1 v2)`,
not an average — while an item whose feature list is empty is excluded from
the scan's match list and from the displayed result list entirely, rather
than being given any score. -/
theorem c1_best_match_aggregation (dist : Vec → Vec → ℚ) (refs : List Vec)
    (h : refs ≠ []) :
    (∀ features : List Vec,
      bestDistance dist refs features
        = minQ (productDistances dist refs features))
    ∧ (∀ features : List Vec, features ≠ [] →
        ∃ bd, bestDistance dist refs features = some bd)
    ∧ (∀ v1 v2 r1 : Vec,
        bestDistance dist [r1] [v1, v2]
          = some (min (dist r1 v1) (dist r1 v2)))
    ∧ (∀ (extract : Nat → List Vec) (maxD : ℚ) (store : Cache)
        (items : List (Nat × ℚ)) (o : FaceScanOut) (p : Nat) (m : ℚ),
        faceScanLoop dist extract refs maxD store items = Except.ok o →
        (items.map Prod.fst).Nodup → (p, m) ∈ items →
        (cacheHit store p m).getD (extract p) = [] →
        (∀ s, (p, s) ∉ o.hits)
        ∧ ∀ r w s,
            runFaceSearch dist extract refs maxD store items
              = (Except.ok r, w) → (p, s) ∉ r) := by
  refine ⟨fun features => bestDistance_eq_product dist refs features,
    fun features hfe => bestDistance_isSome dist refs features h hfe,
    fun v1 v2 r1 => ?_, ?_⟩
  · rw [bestDistance_eq_product]
    simp [productDistances, minQ]
  · intro extract maxD store items o p m hok hnd hmem hempty
    have hexcl := faceScanLoop_empty_features_excluded dist extract refs maxD
      items store o p m hok hnd hmem hempty
    refine ⟨hexcl, ?_⟩
    intro r w s hrw hmemr
    cases items with
    | nil => exact absurd hmem (List.not_mem_nil _)
    | cons i is =>
      simp only [runFaceSearch, hok, Prod.mk.injEq, Except.ok.injEq] at hrw
      obtain ⟨hr, -⟩ := hrw
      rw [← hr, List.mem_map] at hmemr
      obtain ⟨x, hxs, hxe⟩ := hmemr
      have hxh : x ∈ o.hits :=
        (sortOn_perm (fun y => y.2) o.hits).mem_iff.mp hxs
      have hx1 : x.1 = p := congrArg Prod.fst hxe
      have hx2 : (p, x.2) ∈ o.hits := by
        rw [← hx1]
        exact hxh
      exact hexcl x.2 hx2

/-- Witness for C1: the two-feature example against a single reference, and
a concrete scan in which item 7 — whose extraction yields no features — is
excluded from the match list. -/
theorem c1_best_match_aggregation_witness :
    bestDistance exDist [[0]] [[1], [2]]
      = some (min (exDist [0] [1]) (exDist [0] [2]))
    ∧ ∀ s, (7, s) ∉
        (⟨[(7, 3, [])], [], [[]], 0 + 1⟩ : FaceScanOut).hits := by
  have h := c1_best_match_aggregation exDist exRefs (by simp [exRefs])
  refine ⟨h.2.2.1 [1] [2] [0], fun s => ?_⟩
  refine (h.2.2.2 exExtractNone (6/10) [] [(7, 3)]
    ⟨[(7, 3, [])], [], [[]], 0 + 1⟩ 7 3 ?_ ?_ ?_ ?_).1 s
  · norm_num [faceScanLoop, cacheHit, alookup, cachePut, itemMatch,
      exExtractNone, pushMatch]
  · simp
  · simp
  · simp [cacheHit, alookup, exExtractNone]

/-- C3: a face scan returns exactly the items whose best distance does not
exceed the caller's `maxDistance` — the match list is the per-item filter
through `best_distance ≤ maxD` — and every returned item is displayed as
`1 − distance`; on best distances `[0.3, 0.55, 0.61]` with
`maxDistance = 0.6`, exactly the first two items survive, displayed as
scores `[0.7, 0.45]`. -/
theorem c3_face_absolute_threshold :
    (∀ (dist : Vec → Vec → ℚ) (extract : Nat → List Vec) (refs : List Vec)
        (maxD : ℚ) (store : Cache) (items : List (Nat × ℚ))
        (o : FaceScanOut), refs ≠ [] →
      faceScanLoop dist extract refs maxD store items = Except.ok o →
      o.hits = ((items.zip o.feats).filterMap fun q =>
        match bestDistance dist refs q.2 with
        | some bd => if bd ≤ maxD then some (q.1.1, bd) else none
        | none => none)
      ∧ (items ≠ [] →
          runFaceSearch dist extract refs maxD store items
            = (Except.ok ((sortOn (fun x => x.2) o.hits).map
                fun x => (x.1, 1 - x.2)), [o.cache])))
    ∧ runFaceSearch exDist exExtract exRefs (6/10) [] exItems
        = (Except.ok [(0, 7/10), (1, 45/100)], [exFinalCache]) := by
  constructor
  · intro dist extract refs maxD store items o _href hok
    obtain ⟨ha, -, -⟩ := faceScanLoop_spec dist extract refs maxD items store o hok
    constructor
    · have hfun : contribOf dist refs maxD
          = fun q : (Nat × ℚ) × List Vec =>
              match bestDistance dist refs q.2 with
              | some bd => if bd ≤ maxD then some (q.1.1, bd) else none
              | none => none := by
        funext q
        obtain ⟨pm, f⟩ := q
        cases f with
        | nil => rfl
        | cons v vs =>
          simp only [contribOf, itemMatch]
          cases hbd : bestDistance dist refs (v :: vs) with
          | none => simp [hbd]
          | some bd =>
            by_cases hle : bd ≤ maxD <;> simp [hbd, hle]
      rw [ha, hfun]
    · intro hne
      cases items with
      | nil => exact absurd rfl hne
      | cons i is => simp only [runFaceSearch, hok]
  · norm_num [runFaceSearch, faceScanLoop, exItems, exDist, exExtract,
      exRefs, cacheHit, alookup, cachePut, itemMatch, bestDistance, bestStep,
      minQ, pushMatch, sortOn, insertOn, exFinalCache]

/-- Witness for C3: the spec's absolute-threshold example scan, with its
match list equal to the per-item best-distance filter. -/
theorem c3_face_absolute_threshold_witness :
    (⟨exFinalCache, [(0, 3/10), (1, 55/100)],
        [[[3/10]], [[55/100]], [[61/100]]], 0 + 1 + 1 + 1⟩ : FaceScanOut).hits
      = ((exItems.zip ([[[3/10]], [[55/100]], [[61/100]]] : List (List Vec))).filterMap
          fun q =>
          match bestDistance exDist exRefs q.2 with
          | some bd => if bd ≤ 6/10 then some (q.1.1, bd) else none
          | none => none) := by
  have hok : faceScanLoop exDist exExtract exRefs (6/10) [] exItems
      = Except.ok ⟨exFinalCache, [(0, 3/10), (1, 55/100)],
          [[[3/10]], [[55/100]], [[61/100]]], 0 + 1 + 1 + 1⟩ := by
    norm_num [faceScanLoop, exItems, exDist, exExtract, exRefs, cacheHit,
      alookup, cachePut, itemMatch, bestDistance, bestStep, minQ, pushMatch,
      exFinalCache]
  exact (c3_face_absolute_threshold.1 exDist exExtract exRefs (6/10) []
    exItems _ (by simp [exRefs]) hok).1


/-- The text-search encode loop performs exactly one encoder invocation per
readable image, on every run. -/
theorem textEncodeCalls_eq_filter (encodeImg : Nat → Option Vec) :
    ∀ paths : List Nat,
    textEncodeCalls encodeImg paths
      = (paths.filter fun p => (encodeImg p).isSome).length := by
  intro paths
  induction paths with
  | nil => rfl
  | cons p ps ih =>
    cases hp : encodeImg p with
    | some v => simp [textEncodeCalls, hp, List.filter_cons, ih]
    | none => simp [textEncodeCalls, hp, List.filter_cons, ih]

/-- C5 counterexample: the desktop text search (`_run_search`, cited by the
claim alongside the face scan) has no feature cache and no fingerprints —
it is a pure function of the directory contents, so a second run over the
unchanged one-image directory `[0]` is the same computation as the first
and performs `1` embedding call, not `0`. -/
theorem c5_text_rescan_counterexample :
    textEncodeCalls (fun _ => some [1]) [0] = 1 ∧ (1 : Nat) ≠ 0 :=
  ⟨rfl, one_ne_zero⟩

/-- C5 (amended): for the cache-backed face scan, scanning the same items
twice with no fingerprint changes — the second run starts from the cache
snapshot the first run produced — performs zero extraction calls, uses the
identical per-item feature lists, produces the identical match list, leaves
the cache untouched, and the full search (ranking and persisted snapshot
included) returns an identical outcome.  The desktop text search, in
contrast, has no feature cache: every run — second runs over an unchanged
directory included — performs one embedding call per readable image, so its
call count is nonzero whenever any image is readable (its results are still
identical across runs, the computation being pure). -/
theorem c5_scan_idempotence_amended (dist : Vec → Vec → ℚ)
    (extract : Nat → List Vec) (refs : List Vec) (maxD : ℚ) :
    (∀ (store : Cache) (items : List (Nat × ℚ)) (o1 : FaceScanOut),
      (items.map Prod.fst).Nodup →
      faceScanLoop dist extract refs maxD store items = Except.ok o1 →
      faceScanLoop dist extract refs maxD o1.cache items
        = Except.ok ⟨o1.cache, o1.hits, o1.feats, 0⟩
      ∧ runFaceSearch dist extract refs maxD o1.cache items
        = runFaceSearch dist extract refs maxD store items)
    ∧ (∀ (encodeImg : Nat → Option Vec) (paths : List Nat),
        textEncodeCalls encodeImg paths
          = (paths.filter fun p => (encodeImg p).isSome).length)
    ∧ (∀ (encodeImg : Nat → Option Vec) (paths : List Nat) (p : Nat),
        p ∈ paths → (encodeImg p).isSome →
        textEncodeCalls encodeImg paths ≠ 0) := by
  refine ⟨?_, textEncodeCalls_eq_filter, ?_⟩
  · intro store items o1 hnd h1
    obtain ⟨ha, hb, -⟩ :=
      faceScanLoop_spec dist extract refs maxD items store o1 h1
    have hentries := faceScanLoop_cache_entries dist extract refs maxD store
      items store o1 h1 hnd fun _ _ => rfl
    have hhit : List.Forall₂ (fun pm f => cacheHit o1.cache pm.1 pm.2 = some f)
        items o1.feats :=
      List.Forall₂.imp (fun _ _ hab => hab.2) hentries
    have hrun2 := faceScanLoop_all_hit dist extract refs maxD items o1.feats
      o1.cache hhit hb
    rw [← ha] at hrun2
    refine ⟨hrun2, ?_⟩
    cases items with
    | nil => rfl
    | cons i is => simp only [runFaceSearch, h1, hrun2]
  · intro encodeImg paths p hp hs h0
    rw [textEncodeCalls_eq_filter, List.length_eq_zero] at h0
    have hmem : p ∈ paths.filter fun q => (encodeImg q).isSome :=
      List.mem_filter.mpr ⟨hp, hs⟩
    rw [h0] at hmem
    exact List.not_mem_nil p hmem

/-- Witness for C5: re-scanning the three-item face example from the
snapshot it persisted is a full cache hit with zero extraction calls, while
the text search over the readable one-image directory performs a nonzero
number of embedding calls on every run. -/
theorem c5_scan_idempotence_amended_witness :
    faceScanLoop exDist exExtract exRefs (6/10) exFinalCache exItems
      = Except.ok ⟨exFinalCache, [(0, 3/10), (1, 55/100)],
          [[[3/10]], [[55/100]], [[61/100]]], 0⟩
    ∧ textEncodeCalls (fun _ => some [1]) [0] ≠ 0 := by
  have h := c5_scan_idempotence_amended exDist exExtract exRefs (6/10)
  constructor
  · have h1c : faceScanLoop exDist exExtract exRefs (6/10) [] exItems
        = Except.ok ⟨exFinalCache, [(0, 3/10), (1, 55/100)],
            [[[3/10]], [[55/100]], [[61/100]]], 0 + 1 + 1 + 1⟩ := by
      norm_num [faceScanLoop, exItems, exDist, exExtract, exRefs, cacheHit,
        alookup, cachePut, itemMatch, bestDistance, bestStep, minQ, pushMatch,
        exFinalCache]
    exact (h.1 [] exItems _ (by simp [exItems]) h1c).1
  · exact h.2.2 (fun _ => some [1]) [0] 0 (by simp) rfl

/-- C6: during a face scan the cache backing store is written at most once,
and only after every candidate has been processed: a successful scan's
write list is exactly the one post-loop snapshot, while a failing scan
performs no write at all, leaving the previously persisted store contents
unchanged. -/
theorem c6_single_persist (dist : Vec → Vec → ℚ) (extract : Nat → List Vec)
    (refs : List Vec) (maxD : ℚ) (store : Cache) (items : List (Nat × ℚ)) :
    (runFaceSearch dist extract refs maxD store items).2.length ≤ 1
    ∧ (∀ r, (runFaceSearch dist extract refs maxD store items).1
          = Except.ok r →
        ∃ o, faceScanLoop dist extract refs maxD store items = Except.ok o
          ∧ (runFaceSearch dist extract refs maxD store items).2 = [o.cache])
    ∧ (∀ err, (runFaceSearch dist extract refs maxD store items).1
          = Except.error err →
        (runFaceSearch dist extract refs maxD store items).2 = []
        ∧ persistedStore store
            (runFaceSearch dist extract refs maxD store items).2 = store) := by
  cases items with
  | nil =>
    exact ⟨by simp [runFaceSearch],
      fun r hr => absurd hr (by simp [runFaceSearch]),
      fun err _ => ⟨rfl, rfl⟩⟩
  | cons i is =>
    cases hok : faceScanLoop dist extract refs maxD store (i :: is) with
    | error e =>
      refine ⟨?_, ?_, ?_⟩
      · simp [runFaceSearch, hok]
      · intro r hr
        exact absurd hr (by simp [runFaceSearch, hok])
      · intro err _
        exact ⟨by simp [runFaceSearch, hok], by simp [runFaceSearch, hok, persistedStore]⟩
    | ok o =>
      refine ⟨?_, ?_, ?_⟩
      · simp [runFaceSearch, hok]
      · intro r _
        exact ⟨o, rfl, by simp [runFaceSearch, hok]⟩
      · intro err herr
        exact absurd herr (by simp [runFaceSearch, hok])

/-- Witness for C6: the example scan persists exactly the post-loop
snapshot, once. -/
theorem c6_single_persist_witness :
    ∃ o, faceScanLoop exDist exExtract exRefs (6/10) [] exItems
        = Except.ok o
      ∧ (runFaceSearch exDist exExtract exRefs (6/10) [] exItems).2
        = [o.cache] := by
  refine (c6_single_persist exDist exExtract exRefs (6/10) [] exItems).2.1
    [(0, 7/10), (1, 45/100)] ?_
  norm_num [runFaceSearch, faceScanLoop, exItems, exDist, exExtract, exRefs,
    cacheHit, alookup, cachePut, itemMatch, bestDistance, bestStep, minQ,
    pushMatch, sortOn, insertOn]

/-- C10: an item whose extraction yields nothing (the caught load/decode
exception path stores the empty list) ends up cached under its current
fingerprint with an empty feature list; on any later scan over
distinct-path items, calls are made exactly for the cache misses — so the
hit on this (or any) valid entry never re-runs extraction — and while the
fingerprint is unchanged the item can never appear in the match list. -/
theorem c10_failed_extraction_cached (dist : Vec → Vec → ℚ)
    (extract : Nat → List Vec) (refs : List Vec) (maxD : ℚ) (store : Cache)
    (items : List (Nat × ℚ)) (o : FaceScanOut) (p : Nat) (m : ℚ)
    (hok : faceScanLoop dist extract refs maxD store items = Except.ok o)
    (hnd : (items.map Prod.fst).Nodup)
    (hmem : (p, m) ∈ items)
    (hmiss : cacheHit store p m = none)
    (hfail : extract p = []) :
    cacheHit o.cache p m = some []
    ∧ (∀ (c2 : Cache) (items2 : List (Nat × ℚ)) (o2 : FaceScanOut),
        faceScanLoop dist extract refs maxD c2 items2 = Except.ok o2 →
        (items2.map Prod.fst).Nodup →
        o2.calls
          = (items2.filter fun q => (cacheHit c2 q.1 q.2).isNone).length)
    ∧ (∀ (c2 : Cache) (items2 : List (Nat × ℚ)) (o2 : FaceScanOut) (s : ℚ),
        faceScanLoop dist extract refs maxD c2 items2 = Except.ok o2 →
        (items2.map Prod.fst).Nodup → (p, m) ∈ items2 →
        cacheHit c2 p m = some [] →
        (p, s) ∉ o2.hits) := by
  refine ⟨?_, ?_, ?_⟩
  · have hentries := faceScanLoop_cache_entries dist extract refs maxD store
      items store o hok hnd fun _ _ => rfl
    obtain ⟨f, hf1, hf2⟩ := forall2_exists_of_mem hentries (p, m) hmem
    have hf1s : f = (cacheHit store p m).getD (extract p) := hf1
    rw [hmiss, Option.getD_none, hfail] at hf1s
    rw [hf1s] at hf2
    exact hf2
  · intro c2 items2 o2 hok2 hnd2
    exact faceScanLoop_calls dist extract refs maxD c2 items2 c2 o2 hok2 hnd2
      fun _ _ => rfl
  · intro c2 items2 o2 s hok2 hnd2 hmem2 hhit2
    refine faceScanLoop_empty_features_excluded dist extract refs maxD items2
      c2 o2 p m hok2 hnd2 hmem2 ?_ s
    rw [hhit2]
    rfl

/-- Witness for C10: the single failing item is cached as the empty entry,
the rescan makes zero calls, and the item never appears as a match. -/
theorem c10_failed_extraction_cached_witness :
    cacheHit (⟨[(7, 3, [])], [], [[]], 0 + 1⟩ : FaceScanOut).cache 7 3
      = some []
    ∧ (⟨[(7, 3, [])], [], [[]], 0⟩ : FaceScanOut).calls
      = ([((7 : Nat), (3 : ℚ))].filter fun q =>
          (cacheHit [(7, 3, [])] q.1 q.2).isNone).length
    ∧ ((7 : Nat), (1 : ℚ)) ∉ (⟨[(7, 3, [])], [], [[]], 0⟩ : FaceScanOut).hits := by
  have hok1 : faceScanLoop exDist exExtractNone exRefs (6/10) [] [(7, 3)]
      = Except.ok ⟨[(7, 3, [])], [], [[]], 0 + 1⟩ := by
    norm_num [faceScanLoop, cacheHit, alookup, cachePut, itemMatch,
      exExtractNone, pushMatch]
  have hok2 : faceScanLoop exDist exExtractNone exRefs (6/10) [(7, 3, [])]
      [(7, 3)] = Except.ok ⟨[(7, 3, [])], [], [[]], 0⟩ := by
    norm_num [faceScanLoop, cacheHit, alookup, cachePut, itemMatch,
      exExtractNone, pushMatch]
  have h := c10_failed_extraction_cached exDist exExtractNone exRefs (6/10)
    [] [(7, 3)] ⟨[(7, 3, [])], [], [[]], 0 + 1⟩ 7 3 hok1 (by simp) (by simp)
    (by simp [cacheHit, alookup]) rfl
  exact ⟨h.1, h.2.1 [(7, 3, [])] [(7, 3)] ⟨[(7, 3, [])], [], [[]], 0⟩ hok2
      (by simp),
    h.2.2 [(7, 3, [])] [(7, 3)] ⟨[(7, 3, [])], [], [[]], 0⟩ 1 hok2 (by simp)
      (by simp) (by simp [cacheHit, alookup])⟩

end Intelsk
